import Mathlib

/-
Verification of the hierarchical wildcard path-matching engine
(GafferScene::PathMatcher and its helpers, PathMatcher.cpp).

Strings are embedded as `List Char`: the list holds exactly the characters
of the C string before its terminating NUL, so list elements are never the
NUL character.  Comparisons of a character against the terminator `'\0'`
in the C code therefore become comparisons against the end of the list.

The `std::multimap<std::string, Node*, Detail::Less>` of child nodes is
embedded as an insertion-ordered association list `List (List Char × Node)`.
`Detail::Less` is deliberately not a strict weak ordering (its induced
equivalence is not transitive), so the standard leaves the container's
behaviour there undefined and the source does not fully determine it: the
real tree's `equal_range(name)` always yields every entry whose key equals
`name` exactly, but, depending on insertion order and rebalancing, it may
omit wildcard keys that are merely Less-equivalent to `name`.  The model
takes `childRange(name)` to be the full equivalence class — every stored
key `k` with `¬Less k name ∧ ¬Less name k`, the `lessEquiv` filter — and
models `multimap::insert` as appending.  Statements about match results
therefore rely on the contents of the candidate range only where the
source does determine them: exact-key lookups (found by both the model
and the real container), concrete single-candidate instances, and
algebraic facts that hold whatever candidates the range yields.
-/

namespace GafferScene

/-- The three-valued match result (`Filter::Result` values used by
`PathMatcher`): `NoMatch`, `DescendantMatch`, `Match`. -/
inductive Filter.Result where
  | NoMatch
  | DescendantMatch
  | Match
deriving DecidableEq, Repr

open Filter (Result)

/-- Precedence of a result: `Match` (2) > `DescendantMatch` (1) > `NoMatch` (0). -/
def rank : Result → Nat
  | .NoMatch => 0
  | .DescendantMatch => 1
  | .Match => 2

/-- The higher-precedence of two results. -/
def rmax (a b : Result) : Result :=
  if rank a ≤ rank b then b else a

/-- The non-empty suffixes of `s`, longest first: exactly the values taken
by the pointer `s` in the `while( *s != '\0' )` loop of `wildcardMatch`
(`s`, `s+1`, …, the final one-character suffix). -/
def nonEmptySuffixes : List Char → List (List Char)
  | [] => []
  | c :: t => (c :: t) :: nonEmptySuffixes t

/-- `GafferScene::Detail::wildcardMatch( const char *s, const char *pattern )`
(PathMatcher.cpp).  Case `'\0'` of the pattern: `return *s == c`, i.e. the
subject must be exhausted too.  Case `'*'`: if the star is the pattern's
final character, return `true` unconditionally; otherwise try the remainder
of the pattern against each value of `s` taken by the `while( *s != '\0' )`
loop — the non-empty suffixes of the remaining subject.  Default case:
literal characters must agree. -/
def wildcardMatch : List Char → List Char → Bool
  | s, [] => s.isEmpty
  | s, c :: p =>
    if c = '*' then
      if p.isEmpty then
        true
      else
        (nonEmptySuffixes s).any fun t => wildcardMatch t p
    else
      match s with
      | [] => false
      | c' :: s' => if c = c' then wildcardMatch s' p else false

/-- `GafferScene::Detail::Less::operator()` (PathMatcher.cpp): advance both
pointers while the characters agree and are not the terminator; if either
diverging character is `'*'` the strings compare as equivalent (neither is
less); otherwise compare the diverging characters.  When one string is a
proper prefix of the other, its terminator `'\0'` is the diverging
character: `'\0' < c` is true for every character `c` a C string can hold,
and `c < '\0'` is false. -/
def Less : List Char → List Char → Bool
  | [], [] => false
  | [], c2 :: _ => if c2 = '*' then false else true
  | c1 :: _, [] => if c1 = '*' then false else false
  | c1 :: t1, c2 :: t2 =>
    if c1 = c2 then Less t1 t2
    else if c1 = '*' ∨ c2 = '*' then false
    else decide (c1 < c2)

/-- `k` and `s` are equivalent under `Detail::Less`.  The model uses this
as the candidate filter for `Node::childRange(s)` (`multimap::equal_range`):
it is the full equivalence class of `s`.  A key equal to `s` always
satisfies it and is always inside the real range as well; for wildcard
keys that are equivalent without being equal, the real tree search may
return fewer entries, because `Less` is not a strict weak ordering. -/
def lessEquiv (k s : List Char) : Bool :=
  !(Less k s) && !(Less s k)

/-- `PathMatcher::Node` (PathMatcher.cpp): a terminator flag and the
multimap of child nodes, embedded as an insertion-ordered association
list. -/
inductive Node where
  | mk (terminator : Bool) (children : List (List Char × Node)) : Node

/-- The `terminator` field of a node. -/
def Node.terminator : Node → Bool
  | .mk t _ => t

/-- The `m_children` field of a node. -/
def Node.children : Node → List (List Char × Node)
  | .mk _ ch => ch

/-- `Node::Node()`: a fresh node has `terminator = false` and no children. -/
def emptyNode : Node := .mk false []

/-- Whether some child entry is stored under exactly the key `k`
(`Node::child` returns non-null).  `Node::child` scans only
`equal_range(name)` for a key equal to `name`, but an exact key is always
equivalent to itself under `Less`, so an exact entry is found there iff it
is present in the whole child list. -/
def hasKey (k : List Char) : List (List Char × Node) → Bool
  | [] => false
  | e :: t => if e.1 = k then true else hasKey k t

/-- Replace the node of the first entry stored under exactly the key `k`
by its image under `f`, leaving every other entry untouched.  This is the
effect of descending through the child `Node::child(k)` and mutating the
subtree it owns. -/
def updateFirst (f : Node → Node) (k : List Char) :
    List (List Char × Node) → List (List Char × Node)
  | [] => []
  | e :: t => if e.1 = k then (e.1, f e.2) :: t else e :: updateFirst f k t

/-- `PathMatcher::addPath`, on an already tokenized path (PathMatcher.cpp,
the loop over `tokenizer`): for each segment, follow the child stored under
exactly that key, creating a fresh node when `Node::child` returns null
(`m_children.insert`, modelled as appending the entry); after the last
segment set `terminator = true` on the node reached. -/
def addPath : Node → List (List Char) → Node
  | n, [] => .mk true n.children
  | n, p :: pt =>
    .mk n.terminator
      (if hasKey p n.children then
        updateFirst (fun c => addPath c pt) p n.children
      else
        n.children ++ [(p, addPath emptyNode pt)])

/-- The `for` loop of `PathMatcher::matchWalk` over the candidate range,
abstracted over the recursive call `f` into a child with the remaining
segments: for each candidate child (`childRange`, modelled as the stored
keys Less-equivalent to the query segment) whose key wildcard-matches the
segment, update the result through the recursive walk, returning
immediately when the result has become `Match`. -/
def walkList (f : Node → Result → Result) :
    List (List Char × Node) → List Char → Result → Result
  | [], _, res => res
  | (k, c) :: others, s, res =>
    if lessEquiv k s && wildcardMatch s k then
      let r := f c res
      if r = .Match then r else walkList f others s r
    else
      walkList f others s res

/-- `PathMatcher::matchWalk` (PathMatcher.cpp): with no segments left the
result becomes `terminator ? Match : DescendantMatch`; otherwise the walk
loops over the candidate children for the head segment (`walkList`),
recursing with the remaining segments and returning early once the result
is `Match`.  The `result` argument is the variable passed by reference. -/
def matchWalk : Node → List (List Char) → Result → Result
  | n, [], _ => if n.terminator then .Match else .DescendantMatch
  | n, s :: rest, res => walkList (fun c r => matchWalk c rest r) n.children s res

/-- Split a character list at every `'/'`, keeping empty pieces (the raw
split underlying the tokenizer). -/
def splitOnSlash : List Char → List (List Char)
  | [] => [[]]
  | c :: t =>
    if c = '/' then
      [] :: splitOnSlash t
    else
      match splitOnSlash t with
      | [] => [[c]]
      | h :: r => (c :: h) :: r

/-- The tokenization performed by `PathMatcher::match` and
`PathMatcher::addPath`: `boost::tokenizer` with
`boost::char_separator<char>( "/" )`.  A `char_separator` constructed this
way uses its default `drop_empty_tokens` policy, so the segments are the
pieces of the raw split with every empty piece discarded. -/
def tokenize (s : List Char) : List (List Char) :=
  (splitOnSlash s).filter (fun t => !t.isEmpty)

/-- `PathMatcher::addPath` on a path string, for a state whose root node
exists. -/
def addPathN (n : Node) (path : List Char) : Node :=
  addPath n (tokenize path)

/-- `PathMatcher::match` on a path string, for a state whose root node
exists: tokenize, then walk from the root with `result` initialised to
`NoMatch`. -/
def matchN (n : Node) (path : List Char) : Result :=
  matchWalk n (tokenize path) .NoMatch

/-- The engine state: `m_root` is a `boost::shared_ptr<Node>`, which is
null until `clear()` first allocates the root. -/
structure PathMatcher where
  root : Option Node

/-- `PathMatcher::PathMatcher()`: the constructor body is empty, so the
default-constructed `m_root` shared pointer is null. -/
def PathMatcher.construct : PathMatcher := ⟨none⟩

/-- `PathMatcher::clear()`: allocate a fresh empty root node. -/
def PathMatcher.clear (_ : PathMatcher) : PathMatcher := ⟨some emptyNode⟩

/-- `PathMatcher::match`: return `NoMatch` when `m_root` is null
(`if( !node ) return Filter::NoMatch`), otherwise walk from the root. -/
def PathMatcher.matchPath (pm : PathMatcher) (path : List Char) : Result :=
  match pm.root with
  | none => .NoMatch
  | some n => matchN n path

/-- `PathMatcher::addPath` at the engine level.  The code takes
`Node *node = m_root.get()` and unconditionally dereferences `node`
(`node->child( *it )` for the first segment, or `node->terminator = true`
when the path has no segments), so when `m_root` is null every call
dereferences a null pointer; that failure is modelled as `Except.error`. -/
def PathMatcher.addPathChecked (pm : PathMatcher) (path : List Char) :
    Except Unit PathMatcher :=
  match pm.root with
  | none => .error ()
  | some n => .ok ⟨some (addPathN n path)⟩

/-- A trie built from an empty root by a sequence of `addPath` calls (what
a cleared engine holds after its stored patterns have been inserted). -/
def build (ps : List (List Char)) : Node :=
  ps.foldl addPathN emptyNode

/-
Specification-side definitions.  These follow the wording of the spec (and
of the claims), not the code; the theorems below compare them with the
embedded code.
-/

/-- Declarative segment matching, as the spec describes it except that on
a non-final `*` the remainder of the pattern must match some NON-EMPTY
suffix of the remaining subject.  The cases: an exhausted pattern requires
an exhausted subject; a final `*` matches unconditionally; a non-final `*`
requires the remainder of the pattern to match some non-empty suffix of
the remaining subject; a literal character must match positionally. -/
def SpecMatches : List Char → List Char → Prop
  | s, [] => s = []
  | s, c :: p =>
    if c = '*' then
      if p = [] then True
      else ∃ t, t <:+ s ∧ t ≠ [] ∧ SpecMatches t p
    else ∃ s', s = c :: s' ∧ SpecMatches s' p

/-- Declarative segment matching exactly as claim C1 words it: on a
non-final `*`, the remainder of the pattern must match some suffix of the
remaining subject, the EMPTY suffix included. -/
def ClaimedC1Matches : List Char → List Char → Prop
  | s, [] => s = []
  | s, c :: p =>
    if c = '*' then
      if p = [] then True
      else ∃ t, t <:+ s ∧ ClaimedC1Matches t p
    else ∃ s', s = c :: s' ∧ ClaimedC1Matches s' p

/-- The diverging characters of two strings after their longest common
prefix: `none` when the strings are equal (no divergence), otherwise the
pair of characters at the first differing position, where `Option.none`
inside the pair stands for the end of the shorter string. -/
def firstDiv : List Char → List Char → Option (Option Char × Option Char)
  | [], [] => none
  | [], c :: _ => some (none, some c)
  | c :: _, [] => some (some c, none)
  | c :: t, d :: u => if c = d then firstDiv t u else some (some c, some d)

/-- Natural ordering of diverging characters, the end of a string ordering
below every character. -/
def endLt : Option Char → Option Char → Bool
  | none, none => false
  | none, some _ => true
  | some _, none => false
  | some c, some d => decide (c < d)

/-- The fold of `bestList` over the candidate children, abstracted over
the recursive call `f`: the highest-precedence result over all candidate
branches (stored keys inside the comparator range that wildcard-match the
query segment), with no early exit. -/
def bestList (f : Node → Result) :
    List (List Char × Node) → List Char → Result
  | [], _ => .NoMatch
  | (k, c) :: others, s =>
    if lessEquiv k s && wildcardMatch s k then
      rmax (f c) (bestList f others s)
    else
      bestList f others s

/-- The specification-side walk: the highest-precedence outcome across all
branches of the walk, with no early exit.  With no segments left the
branch yields `Match` when the node is a terminator and `DescendantMatch`
otherwise; with segments remaining the result is the `rmax` over every
candidate child whose stored key wildcard-matches the head segment. -/
def bestWalk : Node → List (List Char) → Result
  | n, [] => if n.terminator then .Match else .DescendantMatch
  | n, s :: rest => bestList (fun c => bestWalk c rest) n.children s

/-- Segment-wise wildcard matching of a query segment sequence against a
pattern segment sequence: the sequences have the same length and each
query segment wildcard-matches the corresponding pattern segment. -/
def segwiseMatch : List (List Char) → List (List Char) → Bool
  | [], [] => true
  | q :: qt, p :: pt => wildcardMatch q p && segwiseMatch qt pt
  | _, _ => false

/-- The trie contains a chain of child edges carrying exactly the keys
`ks`, starting from `n` (the node reached by following them exists). -/
def hasChain : Node → List (List Char) → Prop
  | _, [] => True
  | n, k :: kt => ∃ e ∈ n.children, e.1 = k ∧ hasChain e.2 kt

/-- The trie contains a chain of child edges carrying exactly the keys
`ks` whose final node is a terminator. -/
def hasTerminalChain : Node → List (List Char) → Prop
  | n, [] => n.terminator = true
  | n, k :: kt => ∃ e ∈ n.children, e.1 = k ∧ hasTerminalChain e.2 kt

/-
Basic lemmas about results and their precedence.
-/

theorem rmax_noMatch_left (a : Result) : rmax .NoMatch a = a := by
  cases a <;> rfl

theorem rmax_match_left (a : Result) : rmax .Match a = .Match := by
  cases a <;> rfl

theorem rmax_match_right (a : Result) : rmax a .Match = .Match := by
  cases a <;> rfl

theorem rmax_assoc (a b c : Result) : rmax (rmax a b) c = rmax a (rmax b c) := by
  cases a <;> cases b <;> cases c <;> rfl

theorem rmax_eq_match_iff {a b : Result} :
    rmax a b = .Match ↔ a = .Match ∨ b = .Match := by
  cases a <;> cases b <;> decide

theorem rank_le_rmax_left (a b : Result) : rank a ≤ rank (rmax a b) := by
  cases a <;> cases b <;> decide

theorem rank_le_rmax_right (a b : Result) : rank b ≤ rank (rmax a b) := by
  cases a <;> cases b <;> decide

/-
Lemmas about the segment matcher.
-/

theorem mem_nonEmptySuffixes {t s : List Char} :
    t ∈ nonEmptySuffixes s ↔ t ≠ [] ∧ t <:+ s := by
  induction s with
  | nil =>
    simp only [nonEmptySuffixes, List.not_mem_nil, false_iff, not_and]
    intro hne hsuf
    exact hne (List.suffix_nil.mp hsuf)
  | cons c cs ih =>
    simp only [nonEmptySuffixes, List.mem_cons, ih, List.suffix_cons_iff]
    constructor
    · rintro (rfl | ⟨hne, hsuf⟩)
      · exact ⟨List.cons_ne_nil _ _, Or.inl rfl⟩
      · exact ⟨hne, Or.inr hsuf⟩
    · rintro ⟨hne, (rfl | hsuf)⟩
      · exact Or.inl rfl
      · exact Or.inr ⟨hne, hsuf⟩

theorem wildcardMatch_self : ∀ s : List Char, wildcardMatch s s = true := by
  intro s
  induction s with
  | nil => rfl
  | cons c t ih =>
    by_cases hc : c = '*'
    · subst hc
      cases t with
      | nil => rfl
      | cons x t' =>
        have hL : wildcardMatch ('*' :: x :: t') ('*' :: x :: t')
            = (nonEmptySuffixes ('*' :: x :: t')).any fun u => wildcardMatch u (x :: t') := by
          simp [wildcardMatch]
        rw [hL, List.any_eq_true]
        exact ⟨x :: t', mem_nonEmptySuffixes.mpr
          ⟨List.cons_ne_nil _ _, List.suffix_cons _ _⟩, ih⟩
    · simp [wildcardMatch, hc, ih]

/-
Lemmas about the sibling comparator.
-/

theorem Less_irrefl : ∀ a : List Char, Less a a = false := by
  intro a
  induction a with
  | nil => rfl
  | cons c t ih => simp [Less, ih]

theorem lessEquiv_refl (a : List Char) : lessEquiv a a = true := by
  simp [lessEquiv, Less_irrefl]

/-- C8: for two segment-pattern strings the comparator declares neither
less than the other whenever, at the first position where they diverge
after their longest common prefix, either side holds the `*` character;
when neither diverging character is `*` it orders the strings by the
natural ordering of the diverging characters (the end of the shorter
string ordering below every character). -/
theorem claim_C8_Less_divergence :
    ∀ (a b : List Char) (x y : Option Char), firstDiv a b = some (x, y) →
      (((x = some '*' ∨ y = some '*') → Less a b = false ∧ Less b a = false) ∧
        (x ≠ some '*' → y ≠ some '*' →
          Less a b = endLt x y ∧ Less b a = endLt y x)) := by
  intro a
  induction a with
  | nil =>
    intro b x y h
    cases b with
    | nil => simp [firstDiv] at h
    | cons d u =>
      simp only [firstDiv, Option.some.injEq, Prod.mk.injEq] at h
      obtain ⟨hx, hy⟩ := h
      subst hx; subst hy
      constructor
      · rintro (hx' | hy')
        · exact absurd hx' (by simp)
        · have hd : d = '*' := by simpa using hy'
          subst hd
          constructor <;> simp [Less]
      · intro _ hy'
        have hd : d ≠ '*' := fun h => hy' (by simp [h])
        constructor <;> simp [Less, endLt, hd]
  | cons c t ih =>
    intro b x y h
    cases b with
    | nil =>
      simp only [firstDiv, Option.some.injEq, Prod.mk.injEq] at h
      obtain ⟨hx, hy⟩ := h
      subst hx; subst hy
      constructor
      · rintro (hx' | hy')
        · have hc : c = '*' := by simpa using hx'
          subst hc
          constructor <;> simp [Less]
        · exact absurd hy' (by simp)
      · intro hx' _
        have hc : c ≠ '*' := fun h => hx' (by simp [h])
        constructor <;> simp [Less, endLt, hc]
    | cons d u =>
      by_cases hcd : c = d
      · subst hcd
        have h' : firstDiv t u = some (x, y) := by simpa [firstDiv] using h
        have := ih u x y h'
        simpa [Less] using this
      · simp only [firstDiv, if_neg hcd, Option.some.injEq, Prod.mk.injEq] at h
        obtain ⟨hx, hy⟩ := h
        subst hx; subst hy
        constructor
        · rintro (hx' | hy')
          · obtain rfl : c = '*' := by simpa using hx'
            constructor <;> simp [Less, hcd, Ne.symm hcd]
          · obtain rfl : d = '*' := by simpa using hy'
            constructor <;> simp [Less, hcd, Ne.symm hcd]
        · intro hx' hy'
          have hc : c ≠ '*' := fun h => hx' (by simp [h])
          have hd : d ≠ '*' := fun h => hy' (by simp [h])
          constructor <;> simp [Less, endLt, hcd, Ne.symm hcd, hc, hd]

/-- C8 (witness): the comparator at the concrete diverging pair
`"a"`/`"b"`, whose diverging characters are `'a'` and `'b'`: neither is a
wildcard, so the strings order by `'a' < 'b'`. -/
theorem claim_C8_witness :
    Less "a".toList "b".toList = true ∧ Less "b".toList "a".toList = false := by
  have h := claim_C8_Less_divergence "a".toList "b".toList
    (some 'a') (some 'b') (by decide)
  have h2 := h.2 (by decide) (by decide)
  constructor
  · rw [h2.1]; decide
  · rw [h2.2]; decide

/-- C1 (counterexample): on the concrete subject `"a"` and pattern
`"a**"`, the code returns `false`, while the claim's rule — the remainder
of the pattern may match the empty suffix of the remaining subject —
declares a successful match. -/
theorem claim_C1_counterexample :
    wildcardMatch "a".toList "a**".toList = false ∧
      ClaimedC1Matches "a".toList "a**".toList := by
  constructor
  · decide
  · show ClaimedC1Matches ['a'] ['a', '*', '*']
    simp [ClaimedC1Matches, List.suffix_nil]

/-- C1 (amended): the segment matcher returns `true` iff the subject
matches the pattern under the rule that an exhausted pattern requires an
exhausted subject, a literal character must match positionally, a final
`*` matches unconditionally, and a non-final `*` succeeds iff the
remainder of the pattern matches some NON-EMPTY suffix of the remaining
subject (the empty suffix is not attempted, so `"a**"` does not match
`"a"`). -/
theorem claim_C1_amended :
    ∀ (s p : List Char), wildcardMatch s p = true ↔ SpecMatches s p := by
  have main : ∀ (p s : List Char), wildcardMatch s p = true ↔ SpecMatches s p := by
    intro p
    induction p with
    | nil =>
      intro s
      simp [wildcardMatch, SpecMatches, List.isEmpty_iff]
    | cons c p ih =>
      intro s
      by_cases hc : c = '*'
      · subst hc
        by_cases hp : p = []
        · subst hp
          simp [wildcardMatch, SpecMatches]
        · have hpe : p.isEmpty = false := by
            cases p
            · exact absurd rfl hp
            · rfl
          have hL : wildcardMatch s ('*' :: p)
              = (nonEmptySuffixes s).any fun t => wildcardMatch t p := by
            simp [wildcardMatch, hpe]
          have hR : SpecMatches s ('*' :: p) ↔
              ∃ t, t <:+ s ∧ t ≠ [] ∧ SpecMatches t p := by
            simp [SpecMatches, hp]
          rw [hL, hR, List.any_eq_true]
          constructor
          · rintro ⟨t, ht, hw⟩
            obtain ⟨hne, hsuf⟩ := mem_nonEmptySuffixes.mp ht
            exact ⟨t, hsuf, hne, (ih t).mp hw⟩
          · rintro ⟨t, hsuf, hne, hm⟩
            exact ⟨t, mem_nonEmptySuffixes.mpr ⟨hne, hsuf⟩, (ih t).mpr hm⟩
      · cases s with
        | nil =>
          simp [wildcardMatch, SpecMatches, hc]
        | cons c' s' =>
          by_cases he : c = c'
          · subst he
            simp [wildcardMatch, SpecMatches, hc, ih s']
          · simp [wildcardMatch, SpecMatches, hc, he, Ne.symm he]
  intro s p
  exact main p s

/-
The walk with early exit computes the highest-precedence result over all
candidate branches: `matchWalk` agrees with the prune-free `bestWalk`.
-/

theorem rmax_noMatch_right (a : Result) : rmax a .NoMatch = a := by
  cases a <;> rfl

theorem walkList_eq_best (f : Node → Result → Result) (g : Node → Result)
    (hfg : ∀ c r, r ≠ .Match → f c r = rmax r (g c)) :
    ∀ (l : List (List Char × Node)) (s : List Char) (res : Result),
      res ≠ .Match → walkList f l s res = rmax res (bestList g l s) := by
  intro l
  induction l with
  | nil =>
    intro s res _
    simp only [walkList, bestList]
    exact (rmax_noMatch_right res).symm
  | cons e others ih =>
    obtain ⟨k, c⟩ := e
    intro s res hres
    by_cases hg : (lessEquiv k s && wildcardMatch s k) = true
    · simp only [walkList, bestList, if_pos hg]
      have hr : f c res = rmax res (g c) := hfg c res hres
      by_cases hm : f c res = .Match
      · rw [if_pos hm, hm]
        have hgc : g c = .Match := by
          rcases rmax_eq_match_iff.mp (hr ▸ hm) with h | h
          · exact absurd h hres
          · exact h
        rw [hgc, rmax_match_left, rmax_match_right]
      · rw [if_neg hm, ih s (f c res) hm, hr, rmax_assoc]
    · simp only [walkList, bestList, if_neg hg]
      exact ih s res hres

theorem matchWalk_eq_best :
    ∀ (segs : List (List Char)) (n : Node) (res : Result), res ≠ .Match →
      matchWalk n segs res = rmax res (bestWalk n segs) := by
  intro segs
  induction segs with
  | nil =>
    intro n res hres
    cases res with
    | Match => exact absurd rfl hres
    | NoMatch => cases hn : n.terminator <;> simp [matchWalk, bestWalk, hn, rmax, rank]
    | DescendantMatch =>
      cases hn : n.terminator <;> simp [matchWalk, bestWalk, hn, rmax, rank]
  | cons s rest ih =>
    intro n res hres
    simp only [matchWalk, bestWalk]
    exact walkList_eq_best _ _ (fun c r hr => ih c r hr) n.children s res hres

/-- C5: for every trie and query path, `match` returns exactly the
highest-precedence outcome (`Match` > `DescendantMatch` > `NoMatch`) over
all branches of the walk whose stored keys wildcard-match the
corresponding query segments (`bestWalk`, which folds `rmax` over every
candidate branch with no pruning): the early exit taken by `matchWalk` as
soon as some branch yields `Match` never changes the returned result. -/
theorem claim_C5_match_eq_bestWalk (n : Node) (path : List Char) :
    matchN n path = bestWalk n (tokenize path) := by
  rw [matchN, matchWalk_eq_best _ _ _ (by decide)]
  exact rmax_noMatch_left _

/-- C2 (counterexample): after `addPath("/a//b")` on a cleared engine,
`match("/a/b")` returns `Match`, not `NoMatch` as the claim states: the
tokenizer collapses the consecutive delimiters, so both paths produce the
segments `a`, `b`. -/
theorem claim_C2_counterexample :
    matchN (addPathN emptyNode "/a//b".toList) "/a/b".toList ≠ .NoMatch ∧
      matchN (addPathN emptyNode "/a//b".toList) "/a/b".toList = .Match := by
  constructor
  · decide
  · decide

/-- C2 (amended): the tokenization performed by `addPath` and by `match`
splits on `/` and DISCARDS the empty segments arising from consecutive
delimiters (`boost::char_separator` defaults to `drop_empty_tokens`);
consequently `"/a//b"` and `"/a/b"` tokenize identically, and after
`addPath("/a//b")` on a cleared engine both `match("/a/b")` and
`match("/a//b")` return `Match`. -/
theorem claim_C2_amended :
    (∀ s : List Char, [] ∉ tokenize s) ∧
      tokenize "/a//b".toList = tokenize "/a/b".toList ∧
      matchN (addPathN emptyNode "/a//b".toList) "/a/b".toList = .Match ∧
      matchN (addPathN emptyNode "/a//b".toList) "/a//b".toList = .Match := by
  refine ⟨?_, by decide, by decide, by decide⟩
  intro s h
  have := (List.mem_filter.mp h).2
  simp at this

/-- C3 (counterexample): on a freshly cleared engine — an empty trie whose
root exists but holds nothing — matching the empty path returns
`DescendantMatch`, not `NoMatch` as the claim states. -/
theorem claim_C3_counterexample :
    PathMatcher.matchPath (PathMatcher.clear PathMatcher.construct) [] ≠ .NoMatch ∧
      PathMatcher.matchPath (PathMatcher.clear PathMatcher.construct) []
        = .DescendantMatch := by
  constructor
  · decide
  · decide

/-- C3 (amended): matching a path that tokenizes to zero segments returns
`Match` iff the root node exists and is a terminator; it returns `NoMatch`
iff the root pointer is null (a constructed engine that was never
cleared); in every other state — including a freshly cleared empty trie —
it returns `DescendantMatch`. -/
theorem claim_C3_amended (pm : PathMatcher) (path : List Char)
    (h : tokenize path = []) :
    PathMatcher.matchPath pm path =
      (match pm.root with
        | none => .NoMatch
        | some n => if n.terminator then .Match else .DescendantMatch) := by
  obtain ⟨root⟩ := pm
  cases root with
  | none => rfl
  | some n =>
    show matchN n path = _
    rw [matchN, h]
    rfl

/-- C3 (witness): the amended statement at the freshly cleared engine and
the path `"/"` (zero segments): the result is `DescendantMatch`. -/
theorem claim_C3_witness :
    PathMatcher.matchPath (PathMatcher.clear PathMatcher.construct) "/".toList
      = .DescendantMatch := by
  have h := claim_C3_amended (PathMatcher.clear PathMatcher.construct)
    "/".toList (by decide)
  exact h.trans (by decide)

/-- C4 (counterexample): the newly constructed engine is NOT an empty trie
consisting of a root node: its root pointer is null, and invoking
`addPath` on it dereferences that null pointer (modelled as
`Except.error`) — for any path, here `"/a"`. -/
theorem claim_C4_counterexample :
    PathMatcher.construct.root = none ∧
      PathMatcher.construct.addPathChecked "/a".toList = .error () :=
  ⟨rfl, rfl⟩

/-- C4 (amended): a newly constructed engine has a null root (the empty
constructor body leaves the shared pointer unset); `match` may be invoked
safely on it and returns `NoMatch` for every query path, but `addPath`
dereferences the null root for every path — the engine only becomes an
empty trie with a root node after `clear()`. -/
theorem claim_C4_amended (path : List Char) :
    PathMatcher.construct.matchPath path = .NoMatch ∧
      PathMatcher.construct.addPathChecked path = .error () :=
  ⟨rfl, rfl⟩

/-
Idempotence of insertion.
-/

theorem hasKey_updateFirst (f : Node → Node) (k k' : List Char) :
    ∀ l, hasKey k (updateFirst f k' l) = hasKey k l := by
  intro l
  induction l with
  | nil => rfl
  | cons e t ih =>
    by_cases he : e.1 = k'
    · simp [updateFirst, hasKey, he]
    · simp [updateFirst, hasKey, he, ih]

theorem updateFirst_updateFirst (f g : Node → Node) (k : List Char) :
    ∀ l, updateFirst f k (updateFirst g k l) = updateFirst (fun c => f (g c)) k l := by
  intro l
  induction l with
  | nil => rfl
  | cons e t ih =>
    by_cases he : e.1 = k
    · simp [updateFirst, he]
    · simp [updateFirst, he, ih]

theorem updateFirst_congr (f g : Node → Node) (k : List Char)
    (h : ∀ c, f c = g c) : ∀ l, updateFirst f k l = updateFirst g k l := by
  intro l
  induction l with
  | nil => rfl
  | cons e t ih =>
    by_cases he : e.1 = k
    · simp [updateFirst, he, h]
    · simp [updateFirst, he, ih]

theorem hasKey_append_self (k : List Char) (c : Node) :
    ∀ l, hasKey k (l ++ [(k, c)]) = true := by
  intro l
  induction l with
  | nil => simp [hasKey]
  | cons e t ih =>
    by_cases he : e.1 = k
    · simp [hasKey, he]
    · simp [hasKey, he, ih]

theorem updateFirst_append (f : Node → Node) (k : List Char) (c : Node) :
    ∀ l, hasKey k l = false →
      updateFirst f k (l ++ [(k, c)]) = l ++ [(k, f c)] := by
  intro l
  induction l with
  | nil => intro _; simp [updateFirst]
  | cons e t ih =>
    intro h
    by_cases he : e.1 = k
    · simp [hasKey, he] at h
    · have ht : hasKey k t = false := by simpa [hasKey, he] using h
      simp [updateFirst, he, ih ht]

theorem addPath_idem : ∀ (ps : List (List Char)) (n : Node),
    addPath (addPath n ps) ps = addPath n ps := by
  intro ps
  induction ps with
  | nil => intro n; rfl
  | cons p pt ih =>
    intro n
    obtain ⟨t, ch⟩ := n
    by_cases hk : hasKey p ch = true
    · have hA : addPath (Node.mk t ch) (p :: pt) =
          .mk t (updateFirst (fun c => addPath c pt) p ch) := by
        simp [addPath, Node.terminator, Node.children, hk]
      rw [hA]
      have hk2 : hasKey p (updateFirst (fun c => addPath c pt) p ch) = true := by
        rw [hasKey_updateFirst]; exact hk
      have hB : addPath
          (Node.mk t (updateFirst (fun c => addPath c pt) p ch)) (p :: pt) =
          .mk t (updateFirst (fun c => addPath c pt) p
            (updateFirst (fun c => addPath c pt) p ch)) := by
        simp [addPath, Node.terminator, Node.children, hk2]
      rw [hB, updateFirst_updateFirst,
        updateFirst_congr _ (fun c => addPath c pt) _ (fun c => ih c)]
    · have hk' : hasKey p ch = false := by
        cases h : hasKey p ch
        · rfl
        · exact absurd h hk
      have hA : addPath (Node.mk t ch) (p :: pt) =
          .mk t (ch ++ [(p, addPath emptyNode pt)]) := by
        simp [addPath, Node.terminator, Node.children, hk']
      rw [hA]
      have hk2 : hasKey p (ch ++ [(p, addPath emptyNode pt)]) = true :=
        hasKey_append_self _ _ _
      have hB : addPath (Node.mk t (ch ++ [(p, addPath emptyNode pt)])) (p :: pt) =
          .mk t (updateFirst (fun c => addPath c pt) p
            (ch ++ [(p, addPath emptyNode pt)])) := by
        simp [addPath, Node.terminator, Node.children, hk2]
      rw [hB, updateFirst_append _ _ _ _ hk', ih]

/-- C9: insertion is idempotent — for every engine state (any trie with an
allocated root; `addPath` on a null root is the undefined access of C4),
every pattern string `p` and every query path `q`, calling `addPath(p)`
twice in succession yields the same `match(q)` result as calling it once.
The two tries are in fact structurally identical (`addPath_idem`). -/
theorem claim_C9_addPath_idempotent (n : Node) (p q : List Char) :
    matchN (addPathN (addPathN n p) p) q = matchN (addPathN n p) q := by
  show matchN (addPath (addPath n (tokenize p)) (tokenize p)) q
    = matchN (addPath n (tokenize p)) q
  rw [addPath_idem]

/-
Insertion guarantees a match when the query repeats the inserted segments.
-/

theorem mem_updateFirst_of_hasKey (f : Node → Node) {p : List Char} :
    ∀ {l}, hasKey p l = true →
      ∃ c, (p, c) ∈ l ∧ (p, f c) ∈ updateFirst f p l := by
  intro l
  induction l with
  | nil => intro h; simp [hasKey] at h
  | cons e t ih =>
    intro h
    by_cases he : e.1 = p
    · refine ⟨e.2, ?_, ?_⟩
      · rw [show (p, e.2) = e from by rw [← he]]
        exact List.mem_cons_self _ _
      · rw [show updateFirst f p (e :: t) = (e.1, f e.2) :: t from by
          simp [updateFirst, he]]
        rw [he]
        exact List.mem_cons_self _ _
    · have ht : hasKey p t = true := by simpa [hasKey, he] using h
      obtain ⟨c, hc1, hc2⟩ := ih ht
      refine ⟨c, List.mem_cons_of_mem _ hc1, ?_⟩
      rw [show updateFirst f p (e :: t) = e :: updateFirst f p t from by
        simp [updateFirst, he]]
      exact List.mem_cons_of_mem _ hc2

theorem bestList_eq_match_of_mem (f : Node → Result) (s : List Char) :
    ∀ {l : List (List Char × Node)} {k c}, (k, c) ∈ l →
      (lessEquiv k s && wildcardMatch s k) = true → f c = .Match →
      bestList f l s = .Match := by
  intro l
  induction l with
  | nil => intro k c h; simp at h
  | cons e t ih =>
    intro k c hmem hguard hf
    rcases List.mem_cons.mp hmem with he | ht
    · subst he
      simp only [bestList, if_pos hguard, hf, rmax_match_left]
    · by_cases hgd : (lessEquiv e.1 s && wildcardMatch s e.1) = true
      · have : bestList f ((e.1, e.2) :: t) s
            = rmax (f e.2) (bestList f t s) := by
          simp only [bestList, if_pos hgd]
        rw [show e = (e.1, e.2) from rfl, this, ih ht hguard hf, rmax_match_right]
      · have : bestList f ((e.1, e.2) :: t) s = bestList f t s := by
          simp only [bestList, if_neg hgd]
        rw [show e = (e.1, e.2) from rfl, this]
        exact ih ht hguard hf

/-- C6 (counterexample): after `addPath("/*ab")` on a cleared engine, the
query `"/*xab"` has the same number of segments as the pattern and its
segment wildcard-matches the stored segment `"*ab"`, yet `match` returns
`NoMatch`, not `Match` as the claim demands: the wildcard character inside
the query segment makes the stored key strictly `Less` than the segment,
so the key falls outside the comparator's candidate range. -/
theorem claim_C6_counterexample :
    segwiseMatch (tokenize "/*xab".toList) (tokenize "/*ab".toList) = true ∧
      matchN (addPathN emptyNode "/*ab".toList) "/*xab".toList = .NoMatch := by
  constructor
  · decide
  · decide

theorem bestWalk_addPath_exact :
    ∀ (ps : List (List Char)) (n : Node), bestWalk (addPath n ps) ps = .Match := by
  intro ps
  induction ps with
  | nil => intro n; simp [addPath, bestWalk, Node.terminator]
  | cons p pt ih =>
    intro n
    obtain ⟨t, ch⟩ := n
    have hguard : (lessEquiv p p && wildcardMatch p p) = true := by
      rw [Bool.and_eq_true]
      exact ⟨lessEquiv_refl p, wildcardMatch_self p⟩
    by_cases hk : hasKey p ch = true
    · rw [show addPath (Node.mk t ch) (p :: pt) =
          .mk t (updateFirst (fun c => addPath c pt) p ch) from by
        simp [addPath, Node.terminator, Node.children, hk]]
      obtain ⟨c, _, hmem2⟩ := mem_updateFirst_of_hasKey (fun c => addPath c pt) hk
      exact bestList_eq_match_of_mem _ _ hmem2 hguard (ih c)
    · have hk' : hasKey p ch = false := by
        cases h : hasKey p ch
        · rfl
        · exact absurd h hk
      rw [show addPath (Node.mk t ch) (p :: pt) =
          .mk t (ch ++ [(p, addPath emptyNode pt)]) from by
        simp [addPath, Node.terminator, Node.children, hk']]
      have hmem : (p, addPath emptyNode pt) ∈ ch ++ [(p, addPath emptyNode pt)] :=
        List.mem_append_right _ (List.mem_cons_self _ _)
      exact bestList_eq_match_of_mem _ _ hmem hguard (ih emptyNode)

/-- C6 (amended): for every engine state (trie with allocated root) and
every pattern `p`, after `addPath(p)`, `match(q)` returns `Match` for
every query path `q` that tokenizes to exactly `p`'s segments — the walk
reaches the terminator through exact-key lookups, which the candidate
range always contains, in the real container as in this model — and the
spec's concrete wildcard instance holds: after `addPath("/a/*/c")` on a
cleared engine, `match("/a/xyz/c") == Match`.  The broader guarantee for
every same-length segment-wise wildcard-matching query does not hold of
the program: besides the wildcard-in-query counterexample, the real
multimap's `equal_range` may omit an equivalent wildcard key outright
(with keys `"ac"` then `"a*"` stored, the real range for `"ab"` is
empty), `Less` not being a strict weak ordering. -/
theorem claim_C6_amended (n : Node) (p q : List Char)
    (hq : tokenize q = tokenize p) :
    matchN (addPathN n p) q = .Match ∧
      matchN (addPathN emptyNode "/a/*/c".toList) "/a/xyz/c".toList = .Match := by
  constructor
  · rw [matchN, matchWalk_eq_best _ _ _ (by decide), rmax_noMatch_left, hq]
    exact bestWalk_addPath_exact (tokenize p) n
  · decide

/-- C6 (witness): the amended statement at the concrete instance
`addPath("/a/b/c")` with the exact query `"/a/b/c"`: the result is
`Match`, as is `match("/a/xyz/c")` after `addPath("/a/*/c")`. -/
theorem claim_C6_witness :
    matchN (addPathN emptyNode "/a/b/c".toList) "/a/b/c".toList = .Match ∧
      matchN (addPathN emptyNode "/a/*/c".toList) "/a/xyz/c".toList = .Match :=
  claim_C6_amended emptyNode "/a/b/c".toList "/a/b/c".toList (by decide)

/-
Chains of stored keys: what the trie holds after a sequence of addPath
calls, and how the walk's outcomes relate to the stored chains.
-/

theorem mem_updateFirst_image (f : Node → Node) (k : List Char) :
    ∀ {l : List (List Char × Node)} {e}, e ∈ l →
      ∃ e' ∈ updateFirst f k l, e'.1 = e.1 ∧ (e'.2 = e.2 ∨ e'.2 = f e.2) := by
  intro l
  induction l with
  | nil => intro e h; simp at h
  | cons a t ih =>
    intro e h
    by_cases ha : a.1 = k
    · rw [show updateFirst f k (a :: t) = (a.1, f a.2) :: t from by
        simp [updateFirst, ha]]
      rcases List.mem_cons.mp h with rfl | ht
      · exact ⟨(e.1, f e.2), List.mem_cons_self _ _, rfl, Or.inr rfl⟩
      · exact ⟨e, List.mem_cons_of_mem _ ht, rfl, Or.inl rfl⟩
    · rw [show updateFirst f k (a :: t) = a :: updateFirst f k t from by
        simp [updateFirst, ha]]
      rcases List.mem_cons.mp h with rfl | ht
      · exact ⟨e, List.mem_cons_self _ _, rfl, Or.inl rfl⟩
      · obtain ⟨e', he', h1, h2⟩ := ih ht
        exact ⟨e', List.mem_cons_of_mem _ he', h1, h2⟩

theorem mem_updateFirst_inv (f : Node → Node) (k : List Char) :
    ∀ {l : List (List Char × Node)} {e'}, e' ∈ updateFirst f k l →
      e' ∈ l ∨ ∃ c, (k, c) ∈ l ∧ e' = (k, f c) := by
  intro l
  induction l with
  | nil => intro e' h; simp [updateFirst] at h
  | cons a t ih =>
    intro e' h
    by_cases ha : a.1 = k
    · rw [show updateFirst f k (a :: t) = (a.1, f a.2) :: t from by
        simp [updateFirst, ha]] at h
      rcases List.mem_cons.mp h with rfl | ht
      · right
        refine ⟨a.2, ?_, ?_⟩
        · rw [show (k, a.2) = a from by rw [← ha]]
          exact List.mem_cons_self _ _
        · rw [ha]
      · left; exact List.mem_cons_of_mem _ ht
    · rw [show updateFirst f k (a :: t) = a :: updateFirst f k t from by
        simp [updateFirst, ha]] at h
      rcases List.mem_cons.mp h with rfl | ht
      · left; exact List.mem_cons_self _ _
      · rcases ih ht with h2 | ⟨c, hc, rfl⟩
        · left; exact List.mem_cons_of_mem _ h2
        · right; exact ⟨c, List.mem_cons_of_mem _ hc, rfl⟩

theorem chain_addPath_of_isPre :
    ∀ (ks ps : List (List Char)) (n : Node), ks <+: ps →
      hasChain (addPath n ps) ks := by
  intro ks
  induction ks with
  | nil => intro ps n _; trivial
  | cons k kt ih =>
    intro ps n hpre
    obtain ⟨r, hr⟩ := hpre
    subst hr
    simp only [List.cons_append]
    obtain ⟨t, ch⟩ := n
    by_cases hk : hasKey k ch = true
    · rw [show addPath (Node.mk t ch) (k :: (kt ++ r)) =
          .mk t (updateFirst (fun c => addPath c (kt ++ r)) k ch) from by
        simp [addPath, Node.terminator, Node.children, hk]]
      obtain ⟨c, _, hmem2⟩ :=
        mem_updateFirst_of_hasKey (fun c => addPath c (kt ++ r)) hk
      exact ⟨(k, addPath c (kt ++ r)), hmem2, rfl, ih (kt ++ r) c ⟨r, rfl⟩⟩
    · have hk' : hasKey k ch = false := by
        cases h : hasKey k ch
        · rfl
        · exact absurd h hk
      rw [show addPath (Node.mk t ch) (k :: (kt ++ r)) =
          .mk t (ch ++ [(k, addPath emptyNode (kt ++ r))]) from by
        simp [addPath, Node.terminator, Node.children, hk']]
      exact ⟨(k, addPath emptyNode (kt ++ r)),
        List.mem_append_right _ (List.mem_cons_self _ _), rfl,
        ih (kt ++ r) emptyNode ⟨r, rfl⟩⟩

theorem chain_mono_addPath :
    ∀ (ks : List (List Char)) (n : Node) (ps : List (List Char)),
      hasChain n ks → hasChain (addPath n ps) ks := by
  intro ks
  induction ks with
  | nil => intro n ps _; trivial
  | cons k kt ih =>
    intro n ps h
    obtain ⟨e, he, hek, hchain⟩ := h
    cases ps with
    | nil => exact ⟨e, he, hek, hchain⟩
    | cons p pt =>
      obtain ⟨t, ch⟩ := n
      have he' : e ∈ ch := he
      by_cases hk : hasKey p ch = true
      · rw [show addPath (Node.mk t ch) (p :: pt) =
            .mk t (updateFirst (fun c => addPath c pt) p ch) from by
          simp [addPath, Node.terminator, Node.children, hk]]
        obtain ⟨e', he2, h1, h2⟩ :=
          mem_updateFirst_image (fun c => addPath c pt) p he'
        refine ⟨e', he2, h1.trans hek, ?_⟩
        rcases h2 with h2 | h2
        · rw [h2]; exact hchain
        · rw [h2]; exact ih e.2 pt hchain
      · have hk' : hasKey p ch = false := by
          cases h2 : hasKey p ch
          · rfl
          · exact absurd h2 hk
        rw [show addPath (Node.mk t ch) (p :: pt) =
            .mk t (ch ++ [(p, addPath emptyNode pt)]) from by
          simp [addPath, Node.terminator, Node.children, hk']]
        exact ⟨e, List.mem_append_left _ he', hek, hchain⟩

theorem chain_foldl_mono (ks : List (List Char)) :
    ∀ (ps : List (List Char)) (n : Node),
      hasChain n ks → hasChain (ps.foldl addPathN n) ks := by
  intro ps
  induction ps with
  | nil => intro n h; exact h
  | cons w rest ih =>
    intro n h
    rw [List.foldl_cons]
    exact ih (addPathN n w) (chain_mono_addPath ks n (tokenize w) h)

theorem chain_build (ps : List (List Char)) (p : List Char)
    (ks : List (List Char)) (hp : p ∈ ps) (hpre : ks <+: tokenize p) :
    ∀ n : Node, hasChain (ps.foldl addPathN n) ks := by
  induction ps with
  | nil => simp at hp
  | cons w rest ih =>
    intro n
    rw [List.foldl_cons]
    rcases List.mem_cons.mp hp with rfl | hmem
    · exact chain_foldl_mono ks rest (addPathN n p)
        (chain_addPath_of_isPre ks (tokenize p) n hpre)
    · exact ih hmem (addPathN n w)

theorem bestList_rank_ge_of_mem (f : Node → Result) (s : List Char) :
    ∀ {l : List (List Char × Node)} {k c}, (k, c) ∈ l →
      (lessEquiv k s && wildcardMatch s k) = true →
      rank (f c) ≤ rank (bestList f l s) := by
  intro l
  induction l with
  | nil => intro k c h; simp at h
  | cons e t ih =>
    intro k c hmem hguard
    rcases List.mem_cons.mp hmem with he | ht
    · subst he
      simp only [bestList, if_pos hguard]
      exact rank_le_rmax_left _ _
    · by_cases hgd : (lessEquiv e.1 s && wildcardMatch s e.1) = true
      · rw [show e = (e.1, e.2) from rfl,
          show bestList f ((e.1, e.2) :: t) s
            = rmax (f e.2) (bestList f t s) from by
          simp only [bestList, if_pos hgd]]
        exact le_trans (ih ht hguard) (rank_le_rmax_right _ _)
      · rw [show e = (e.1, e.2) from rfl,
          show bestList f ((e.1, e.2) :: t) s = bestList f t s from by
          simp only [bestList, if_neg hgd]]
        exact ih ht hguard

theorem bestWalk_rank_of_chain :
    ∀ (qs : List (List Char)) (n : Node), hasChain n qs →
      1 ≤ rank (bestWalk n qs) := by
  intro qs
  induction qs with
  | nil =>
    intro n _
    cases hn : n.terminator <;> simp [bestWalk, hn, rank]
  | cons s rest ih =>
    intro n h
    obtain ⟨e, he, hek, hchain⟩ := h
    have hguard : (lessEquiv e.1 s && wildcardMatch s e.1) = true := by
      rw [hek, Bool.and_eq_true]
      exact ⟨lessEquiv_refl s, wildcardMatch_self s⟩
    calc 1 ≤ rank (bestWalk e.2 rest) := ih e.2 hchain
      _ ≤ rank (bestList (fun c => bestWalk c rest) n.children s) :=
        bestList_rank_ge_of_mem (fun c => bestWalk c rest) s
          (show (e.1, e.2) ∈ n.children from he) hguard

theorem bestList_match_inv (f : Node → Result) (s : List Char) :
    ∀ {l : List (List Char × Node)}, bestList f l s = .Match →
      ∃ k c, (k, c) ∈ l ∧ wildcardMatch s k = true ∧ f c = .Match := by
  intro l
  induction l with
  | nil => intro h; simp [bestList] at h
  | cons e t ih =>
    intro h
    obtain ⟨k, c⟩ := e
    by_cases hgd : (lessEquiv k s && wildcardMatch s k) = true
    · rw [show bestList f ((k, c) :: t) s = rmax (f c) (bestList f t s) from by
        simp only [bestList, if_pos hgd]] at h
      rcases rmax_eq_match_iff.mp h with hf | hrest
      · have hgd2 : lessEquiv k s = true ∧ wildcardMatch s k = true := by
          rw [← Bool.and_eq_true]; exact hgd
        exact ⟨k, c, List.mem_cons_self _ _, hgd2.2, hf⟩
      · obtain ⟨k', c', hm, hw, hf⟩ := ih hrest
        exact ⟨k', c', List.mem_cons_of_mem _ hm, hw, hf⟩
    · rw [show bestList f ((k, c) :: t) s = bestList f t s from by
        simp only [bestList, if_neg hgd]] at h
      obtain ⟨k', c', hm, hw, hf⟩ := ih h
      exact ⟨k', c', List.mem_cons_of_mem _ hm, hw, hf⟩

theorem bestWalk_match_implies_chain :
    ∀ (qs : List (List Char)) (n : Node), bestWalk n qs = .Match →
      ∃ ks, segwiseMatch qs ks = true ∧ hasTerminalChain n ks := by
  intro qs
  induction qs with
  | nil =>
    intro n h
    cases hn : n.terminator with
    | false => simp [bestWalk, hn] at h
    | true => exact ⟨[], rfl, hn⟩
  | cons s rest ih =>
    intro n h
    obtain ⟨k, c, hmem, hw, hf⟩ := bestList_match_inv (fun c => bestWalk c rest) s h
    obtain ⟨ks, hsw, htc⟩ := ih c hf
    refine ⟨k :: ks, ?_, ⟨(k, c), hmem, rfl, htc⟩⟩
    rw [segwiseMatch, Bool.and_eq_true]
    exact ⟨hw, hsw⟩

theorem htc_emptyNode : ∀ ks : List (List Char), ¬ hasTerminalChain emptyNode ks := by
  intro ks h
  cases ks with
  | nil => exact Bool.false_ne_true (show (false : Bool) = true from h)
  | cons k kt =>
    obtain ⟨e, he, _, _⟩ := h
    simp [emptyNode, Node.children] at he

theorem htc_addPath :
    ∀ (ps : List (List Char)) (n : Node) (ks : List (List Char)),
      hasTerminalChain (addPath n ps) ks → ks = ps ∨ hasTerminalChain n ks := by
  intro ps
  induction ps with
  | nil =>
    intro n ks h
    cases ks with
    | nil => left; rfl
    | cons k kt => right; exact h
  | cons p pt ih =>
    intro n ks h
    obtain ⟨t, ch⟩ := n
    cases ks with
    | nil =>
      right
      have h' : (addPath (Node.mk t ch) (p :: pt)).terminator = true := h
      have ht : (addPath (Node.mk t ch) (p :: pt)).terminator = t := by
        simp [addPath, Node.terminator]
      rw [ht] at h'
      exact h'
    | cons k kt =>
      by_cases hk : hasKey p ch = true
      · rw [show addPath (Node.mk t ch) (p :: pt) =
            .mk t (updateFirst (fun c => addPath c pt) p ch) from by
          simp [addPath, Node.terminator, Node.children, hk]] at h
        obtain ⟨e, he, hek, htc⟩ := h
        rcases mem_updateFirst_inv (fun c => addPath c pt) p he with hmem | ⟨c, hc, rfl⟩
        · right; exact ⟨e, hmem, hek, htc⟩
        · have hpk : p = k := hek
          rcases ih c kt htc with rfl | hrec
          · left; rw [← hpk]
          · right; exact ⟨(p, c), hc, hek, hrec⟩
      · have hk' : hasKey p ch = false := by
          cases h2 : hasKey p ch
          · rfl
          · exact absurd h2 hk
        rw [show addPath (Node.mk t ch) (p :: pt) =
            .mk t (ch ++ [(p, addPath emptyNode pt)]) from by
          simp [addPath, Node.terminator, Node.children, hk']] at h
        obtain ⟨e, he, hek, htc⟩ := h
        rcases List.mem_append.mp he with hmem | hsing
        · right; exact ⟨e, hmem, hek, htc⟩
        · have he' : e = (p, addPath emptyNode pt) := List.mem_singleton.mp hsing
          subst he'
          have hpk : p = k := hek
          rcases ih emptyNode kt htc with rfl | hrec
          · left; rw [← hpk]
          · exact absurd hrec (htc_emptyNode kt)

theorem htc_build :
    ∀ (ps : List (List Char)) (n : Node) (ks : List (List Char)),
      hasTerminalChain (ps.foldl addPathN n) ks →
      (∃ w ∈ ps, tokenize w = ks) ∨ hasTerminalChain n ks := by
  intro ps
  induction ps with
  | nil => intro n ks h; right; exact h
  | cons w rest ih =>
    intro n ks h
    rw [List.foldl_cons] at h
    rcases ih (addPathN n w) ks h with ⟨w', hw', hteq⟩ | hrec
    · left; exact ⟨w', List.mem_cons_of_mem _ hw', hteq⟩
    · rcases htc_addPath (tokenize w) n ks hrec with rfl | h2
      · left; exact ⟨w, List.mem_cons_self _ _, rfl⟩
      · right; exact h2

/-- C7 (counterexample): with stored patterns `"/a/b/c"` and `"/*"`, the
query `"/a"` is a strict prefix (proper, non-empty remainder) of the
stored pattern `"/a/b/c"`'s segments and is not itself a stored pattern,
yet `match("/a")` returns `Match` — the other stored pattern's wildcard
segment matches `"a"` exactly — not `DescendantMatch` as the claim
states. -/
theorem claim_C7_counterexample :
    (tokenize "/a".toList <+: tokenize "/a/b/c".toList) ∧
      tokenize "/a".toList ≠ tokenize "/a/b/c".toList ∧
      (∀ w ∈ ["/a/b/c".toList, "/*".toList],
        tokenize w ≠ tokenize "/a".toList) ∧
      matchN (build ["/a/b/c".toList, "/*".toList]) "/a".toList = .Match := by
  refine ⟨by decide, by decide, by decide, by decide⟩

/-- C7 (amended): for every trie built by a sequence of `addPath` calls on
a cleared engine, every stored pattern `p` and every query path `q` whose
segment sequence is a strict (proper, non-empty remainder) prefix of `p`'s
segment sequence, if no stored pattern has the same number of segments as
`q` and wildcard-matches it segment-wise (in particular `q` is not itself
a stored pattern), then `match(q)` returns `DescendantMatch`, not
`Match`. -/
theorem claim_C7_amended (ps : List (List Char)) (p q : List Char)
    (hp : p ∈ ps) (hpre : tokenize q <+: tokenize p)
    (_hne : tokenize q ≠ tokenize p)
    (hno : ∀ w ∈ ps, segwiseMatch (tokenize q) (tokenize w) = false) :
    matchN (build ps) q = .DescendantMatch := by
  rw [matchN, matchWalk_eq_best _ _ _ (by decide), rmax_noMatch_left]
  have hchain : hasChain (build ps) (tokenize q) :=
    chain_build ps p (tokenize q) hp hpre emptyNode
  have h1 : 1 ≤ rank (bestWalk (build ps) (tokenize q)) :=
    bestWalk_rank_of_chain _ _ hchain
  have h2 : bestWalk (build ps) (tokenize q) ≠ .Match := by
    intro hm
    obtain ⟨ks, hsw, htc⟩ := bestWalk_match_implies_chain _ _ hm
    rcases htc_build ps emptyNode ks htc with ⟨w, hw, hteq⟩ | habs
    · rw [← hteq] at hsw
      rw [hno w hw] at hsw
      exact Bool.false_ne_true hsw
    · exact htc_emptyNode ks habs
  cases hbv : bestWalk (build ps) (tokenize q) with
  | NoMatch => rw [hbv] at h1; exact absurd h1 (by decide)
  | DescendantMatch => rfl
  | Match => exact absurd hbv h2

/-- C7 (witness): the amended statement on the trie holding only
`"/a/b/c"` with query `"/a/b"`: the result is `DescendantMatch`. -/
theorem claim_C7_witness :
    matchN (build ["/a/b/c".toList]) "/a/b".toList = .DescendantMatch :=
  claim_C7_amended ["/a/b/c".toList] "/a/b/c".toList "/a/b".toList
    (by decide) (by decide) (by decide) (by decide)

end GafferScene
